import Mathlib

/-!
Verification of the loom export subsystem and related components.

Shallow embedding of the Rust sources:
* `src/crates/loom-core/src/export/mod.rs` — format resolution and dispatch
* `src/crates/loom-core/src/export/json.rs` — attribute filtering and JSON export
* `src/crates/loom-core/src/util.rs` — case-insensitive attribute lookup
* `src/crates/loom-tui/src/components/profile_export_dialog.rs` — profile export dialog
* `src/crates/loom-tui/src/components/layout_bar.rs` — layout bar rendering

Modelling conventions:
* Rust `String` is Lean `String`; `str::to_lowercase` is modelled per-character
  with `Char.toLower` and `str::trim` with `Char.isWhitespace` (both faithful on
  ASCII, which is all the extension matching and the spec's examples use).
* The `Ord` instance Rust's `BTreeMap<String, _>` sorts by is byte-lexicographic
  order on UTF-8 strings, which coincides with lexicographic order on Unicode
  scalar values; it is modelled by the executable comparator `keyLt` below.
* `BTreeMap<String, Vec<String>>` is modelled as an association list whose keys
  are kept in strictly increasing `keyLt` order; `collect()` into a `BTreeMap`
  is a left fold of ordered insertion (a later duplicate key overwrites an
  earlier one, as `BTreeMap::insert` does), and iteration order is list order.
* The filesystem is modelled by an explicit success flag (`fs::write` either
  writes the whole payload or fails); a file that was written is recorded in
  the result so that "no output file is produced" is expressible.
* `serde_json` pretty-printing is modelled at the JSON value level: a `Json`
  tree in which object member order is significant stands for the printed
  text (pretty-printing this data is injective and never fails), and
  deserialization is modelled structurally on the shapes the serializer emits.
-/

namespace Loom

/-! ### Lexicographic string order (the `Ord` used by `BTreeMap<String, _>`) -/

/-- Lexicographic comparison of character lists by Unicode scalar value. -/
def keyLtChars : List Char → List Char → Bool
  | [], [] => false
  | [], _ :: _ => true
  | _ :: _, [] => false
  | a :: as, b :: bs => if a < b then true else if a = b then keyLtChars as bs else false

/-- Strict order on strings: the model of Rust's `Ord for String`
(byte-lexicographic on UTF-8, equivalently lexicographic on scalar values). -/
def keyLt (a b : String) : Bool := keyLtChars a.data b.data

/-! ### Character-level models of Rust string helpers -/

/-- Per-character lowercasing, the model of Rust `str::to_lowercase`
(faithful for ASCII input). -/
def lowerStr (s : String) : String :=
  String.mk (s.data.map Char.toLower)

/-- Model of Rust `str::trim`: drop leading and trailing whitespace. -/
def trimStr (s : String) : String :=
  String.mk (((s.data.dropWhile Char.isWhitespace).reverse.dropWhile
    Char.isWhitespace).reverse)

/-! ### Data model (`crate::entry`) -/

/-- Model of `crate::entry::LdapEntry` (entry.rs is not in the corpus).
Modelled from the spec: an Entry is a distinguished name plus an attribute
set, a mapping from attribute name to an ordered sequence of values whose
iteration order is canonically alphabetical by name (a `BTreeMap`, here an
association list kept in `keyLt` key order). `LdapEntry::new(dn, attributes)`
is structure construction. The struct declares `dn` before `attributes`,
which fixes the serde field order. -/
structure LdapEntry where
  dn : String
  attributes : List (String × List String)
  deriving DecidableEq, Repr

/-- Exact-key lookup, the model of `BTreeMap::get`. -/
def lookupA (key : String) : List (String × List String) → Option (List String)
  | [] => none
  | (k, v) :: rest => if key = k then some v else lookupA key rest

/-- Ordered insertion, the model of `BTreeMap::insert`: an existing key has
its value replaced, otherwise the pair is placed at its sorted position. -/
def insertSorted (key : String) (val : List String) :
    List (String × List String) → List (String × List String)
  | [] => [(key, val)]
  | (k, v) :: rest =>
    if keyLt key k then (key, val) :: (k, v) :: rest
    else if key = k then (key, val) :: rest
    else (k, v) :: insertSorted key val rest

/-- `collect()` of an iterator of pairs into a `BTreeMap`: left fold of
ordered insertion. -/
def collectBTree (l : List (String × List String)) : List (String × List String) :=
  l.foldl (fun m kv => insertSorted kv.1 kv.2 m) []

/-- The `BTreeMap` key-order invariant: keys strictly increasing. -/
def sortedKeys (m : List (String × List String)) : Prop :=
  m.Pairwise (fun a b => keyLt a.1 b.1 = true)

instance (m : List (String × List String)) : Decidable (sortedKeys m) :=
  inferInstanceAs (Decidable (m.Pairwise _))

/-! ### Attribute selection and JSON export
(`export/mod.rs` `requested_attrs`, `export/json.rs` `filter_entries`) -/

/-- `requested_attrs` from `export/mod.rs`: if `attributes` contains only
`"*"` (length one and first element `"*"`), return `none` meaning all
attributes in alphabetical order; otherwise return the explicit list. -/
def requested_attrs (attributes : List String) : Option (List String) :=
  if attributes.length = 1 ∧ attributes[0]? = some "*" then none
  else some attributes

/-- `filter_entries` from `export/json.rs`: for an explicit selection,
rebuild each entry's attribute set with only the requested names that are
present (exact-name `BTreeMap::get`), collecting into a fresh `BTreeMap`;
for wildcard, return the entries unchanged (`entries.to_vec()`). -/
def filter_entries (entries : List LdapEntry) (attributes : List String) :
    List LdapEntry :=
  match requested_attrs attributes with
  | some attrs =>
    entries.map (fun entry =>
      let filtered := collectBTree
        (attrs.filterMap (fun a => (lookupA a entry.attributes).map (fun v => (a, v))))
      { dn := entry.dn, attributes := filtered })
  | none => entries

/-- The JSON value tree; object member order is significant, standing for
the order in which `serde_json` prints the members. -/
inductive Json where
  | str : String → Json
  | arr : List Json → Json
  | obj : List (String × Json) → Json
  deriving Repr

/-- serde serialization of one `LdapEntry`: an object with the struct's
fields in declaration order, the attribute map serialized as an object in
map iteration order, each value list as an array of strings. -/
def entryToJson (e : LdapEntry) : Json :=
  .obj [("dn", .str e.dn),
        ("attributes", .obj (e.attributes.map (fun kv => (kv.1, .arr (kv.2.map .str)))))]

/-- serde serialization of `Vec<LdapEntry>`: a JSON array. -/
def entriesToJson (es : List LdapEntry) : Json :=
  .arr (es.map entryToJson)

/-- Errors of `crate::error::CoreError` relevant to export (error.rs is not
in the corpus). Modelled from the spec: a single export-failure kind carrying
a human-readable message. -/
inductive CoreError where
  | ExportError : String → CoreError
  deriving DecidableEq, Repr

/-- `to_string` from `export/json.rs`: filter, then serialize to JSON.
`serde_json::to_string_pretty` cannot fail on this data (string keys,
string leaves), so the `Result` is always `Ok`. -/
def to_string (entries : List LdapEntry) (attributes : List String) :
    Except CoreError Json :=
  .ok (entriesToJson (filter_entries entries attributes))

/-- What an export call left on disk. The LDIF/CSV/XLSX payloads are opaque
here because their encoders (ldif.rs, csv.rs, xlsx.rs) are not in the corpus. -/
inductive FileOutput where
  | jsonFile : Json → FileOutput
  | ldifFile : FileOutput
  | csvFile : FileOutput
  | xlsxFile : FileOutput
  deriving Repr

/-- `export` from `export/json.rs`: filter, serialize (cannot fail on this
data), write the whole payload to `path` (modelled by the `writeOk` flag),
and return the length of the ORIGINAL entry slice. -/
def json_export (entries : List LdapEntry) (attributes : List String)
    (writeOk : Bool) : Except CoreError Nat × Option FileOutput :=
  let filtered := filter_entries entries attributes
  let json := entriesToJson filtered
  if writeOk then (.ok entries.length, some (.jsonFile json))
  else (.error (.ExportError "Failed to write file"), none)

/-- Modelled from the spec: `ldif::export` (ldif.rs is not in the corpus).
Per spec §4.4 the encoder serializes the filtered entries, writes the payload,
and the orchestration returns the original entry count on success. -/
def ldif_export (entries : List LdapEntry) (_attributes : List String)
    (writeOk : Bool) : Except CoreError Nat × Option FileOutput :=
  if writeOk then (.ok entries.length, some .ldifFile)
  else (.error (.ExportError "Failed to write file"), none)

/-- Modelled from the spec: `csv::export` (csv.rs is not in the corpus).
Same orchestration contract as the other encoders (spec §4.4). -/
def csv_export (entries : List LdapEntry) (_attributes : List String)
    (writeOk : Bool) : Except CoreError Nat × Option FileOutput :=
  if writeOk then (.ok entries.length, some .csvFile)
  else (.error (.ExportError "Failed to write file"), none)

/-- Modelled from the spec: `xlsx::export` (xlsx.rs is not in the corpus).
Same orchestration contract as the other encoders (spec §4.4). -/
def xlsx_export (entries : List LdapEntry) (_attributes : List String)
    (writeOk : Bool) : Except CoreError Nat × Option FileOutput :=
  if writeOk then (.ok entries.length, some .xlsxFile)
  else (.error (.ExportError "Failed to write file"), none)

/-! ### Format resolution (`export/mod.rs`) -/

/-- The characters of a path's final component (after the last `/`),
the model of `Path::file_name`. -/
def fileNameChars (p : String) : List Char :=
  (p.data.reverse.takeWhile (fun c => c ≠ '/')).reverse

/-- Model of `Path::extension`: split the file name at the last `.`;
no extension when there is no dot, when the only dot leads the file name
(a hidden file), or when the file name is `..`. -/
def path_extension (p : String) : Option String :=
  let cs := fileNameChars p
  if cs = ['.', '.'] then none
  else
    let after := (cs.reverse.takeWhile (fun c => c ≠ '.')).reverse
    if after.length = cs.length then none
    else if cs.length = after.length + 1 then none
    else some (String.mk after)

/-- `ExportFormat` from `export/mod.rs`. -/
inductive ExportFormat where
  | Ldif
  | Json
  | Csv
  | Xlsx
  deriving DecidableEq, Repr

/-- `ExportFormat::from_path`: match on the lowercased extension. -/
def ExportFormat.from_path (p : String) : Option ExportFormat :=
  (path_extension p).bind (fun ext =>
    let e := lowerStr ext
    if e = "ldif" ∨ e = "ldf" then some .Ldif
    else if e = "json" then some .Json
    else if e = "csv" then some .Csv
    else if e = "xlsx" ∨ e = "xls" then some .Xlsx
    else none)

/-- The extension-alias table exactly as the spec words it: `ldif`/`ldf` →
Ldif; `xlsx`/`xls` → Xlsx; `json` → Json; `csv` → Csv (on an
already-lowercased extension), for comparison with `ExportFormat.from_path`. -/
def specExtFormat (e : String) : Option ExportFormat :=
  if e = "ldif" ∨ e = "ldf" then some .Ldif
  else if e = "xlsx" ∨ e = "xls" then some .Xlsx
  else if e = "json" then some .Json
  else if e = "csv" then some .Csv
  else none

/-- `export_entries` from `export/mod.rs`: resolve the format from the path
(failing with an unknown-extension error before any output exists), then
dispatch to the matching encoder. -/
def export_entries (entries : List LdapEntry) (p : String)
    (attributes : List String) (writeOk : Bool) :
    Except CoreError Nat × Option FileOutput :=
  match ExportFormat.from_path p with
  | none => (.error (.ExportError "Unknown file extension"), none)
  | some .Ldif => ldif_export entries attributes writeOk
  | some .Json => json_export entries attributes writeOk
  | some .Csv => csv_export entries attributes writeOk
  | some .Xlsx => xlsx_export entries attributes writeOk

/-! ### JSON deserialization (serde derive, modelled on the shapes the
serializer emits) -/

/-- Fail-fast elementwise deserialization of a list (the `Option` traversal,
written structurally). -/
def mapMo {α β : Type} (f : α → Option β) : List α → Option (List β)
  | [] => some []
  | x :: xs =>
    match f x with
    | none => none
    | some y => (mapMo f xs).map (fun ys => y :: ys)

/-- Deserialize a JSON array of strings into a value list. -/
def valuesFromJson : Json → Option (List String)
  | .arr vs => mapMo (fun j => match j with | .str s => some s | _ => none) vs
  | _ => none

/-- Deserialize a JSON object into a `BTreeMap<String, Vec<String>>`:
members are inserted in document order (a later duplicate overwrites). -/
def attrsFromJson : Json → Option (List (String × List String))
  | .obj fields =>
    (mapMo (fun kv => (valuesFromJson kv.2).map (fun v => (kv.1, v))) fields).map
      collectBTree
  | _ => none

/-- Deserialize one entry from the object shape the serializer emits. -/
def entryFromJson : Json → Option LdapEntry
  | .obj [("dn", .str d), ("attributes", a)] =>
    (attrsFromJson a).map (fun m => { dn := d, attributes := m })
  | _ => none

/-- Deserialize `Vec<LdapEntry>` from a JSON array. -/
def entriesFromJson : Json → Option (List LdapEntry)
  | .arr l => mapMo entryFromJson l
  | _ => none

/-- The member names of a JSON object (empty for non-objects). -/
def jsonObjKeys : Json → List String
  | .obj fields => fields.map Prod.fst
  | _ => []

/-- The attribute names, in printed order, of one serialized entry. -/
def jsonAttrKeys : Json → List String
  | .obj fields =>
    match fields.lookup "attributes" with
    | some a => jsonObjKeys a
    | none => []
  | _ => []

/-! ### Attribute lookup utilities (`util.rs`) -/

/-- `get_values` from `util.rs`: scan the map in iteration order and return
a copy of the value sequence of the first key whose lowercasing matches the
lowercased query, or an empty sequence. -/
def get_values (attrs : List (String × List String)) (key : String) : List String :=
  match attrs with
  | [] => []
  | (k, v) :: rest =>
    if lowerStr k = lowerStr key then v else get_values rest key

/-- `get_first` from `util.rs`: the first value of `get_values`, if any. -/
def get_first (attrs : List (String × List String)) (key : String) : Option String :=
  (get_values attrs key).head?

/-- `has_attr` from `util.rs`: case-insensitive existence check. -/
def has_attr (attrs : List (String × List String)) (key : String) : Bool :=
  attrs.any (fun kv => lowerStr kv.1 = lowerStr key)

/-- `find_values_ci` from `util.rs`: same scan as `get_values` but returning
the borrowed sequence as an `Option`. -/
def find_values_ci (attrs : List (String × List String)) (key : String) :
    Option (List String) :=
  match attrs with
  | [] => none
  | (k, v) :: rest =>
    if lowerStr k = lowerStr key then some v else find_values_ci rest key

/-- First-result choice between two lookups. -/
def optOr (a b : Option (List String)) : Option (List String) :=
  match a with
  | some v => some v
  | none => b

/-! ### Layout bar (`layout_bar.rs`) -/

/-- `ActiveLayout` from `crate::action` (action.rs is not in the corpus).
Modelled from the usage in `layout_bar.rs`: the two selectable layouts. -/
inductive ActiveLayout where
  | Browser
  | Connections
  deriving DecidableEq, Repr

/-- The contents of the spans `LayoutBar::render` builds, in order (styles
do not affect widths and are omitted). -/
def layout_bar_spans (active : ActiveLayout) : List String :=
  [" ",
   if active = ActiveLayout.Browser then "[Browser]" else " Browser ",
   "  ",
   if active = ActiveLayout.Connections then "[Connections]" else " Connections "]

/-- `content_len` in `LayoutBar::render`: the summed lengths of the span
contents (all content is ASCII, so byte length equals character count). -/
def layout_bar_content_len (active : ActiveLayout) : Nat :=
  ((layout_bar_spans active).map String.length).sum

/-- The padding-width computation of `LayoutBar::render` line 53:
`area.width as usize - content_len.min(area.width as usize)`. -/
def layout_bar_padding_len (width content_len : Nat) : Nat :=
  width - min content_len width

/-- The padding string `" ".repeat(...)` appended by `LayoutBar::render`. -/
def layout_bar_padding (active : ActiveLayout) (width : Nat) : String :=
  String.mk (List.replicate
    (layout_bar_padding_len width (layout_bar_content_len active)) ' ')

/-! ### Profile export dialog (`profile_export_dialog.rs`) -/

/-- Model of `crate::config::ConnectionProfile` (config.rs is not in the
corpus). Modelled from the spec and the dialog's usage: a named connection
profile; only the name is observed by this dialog. -/
structure ConnectionProfile where
  name : String
  deriving DecidableEq, Repr

/-- `ActiveField` from `profile_export_dialog.rs`. -/
inductive ActiveField where
  | ProfileList
  | Filename
  deriving DecidableEq, Repr

/-- `crate::action::Action`, restricted to the variants the dialog returns
(action.rs is not in the corpus; variants are modelled from their uses in
`profile_export_dialog.rs`). -/
inductive Action where
  | None
  | ClosePopup
  | ErrorMessage (msg : String)
  | StatusMessage (msg : String)
  deriving DecidableEq, Repr

/-- The mutable state of `ProfileExportDialog` (the popup's own visibility
tracks `visible` and is not modelled separately; the theme is immutable). -/
structure ProfileExportDialogState where
  visible : Bool
  active_field : ActiveField
  profiles : List (String × Bool)
  cursor : Nat
  filename : String
  deriving DecidableEq, Repr

/-- `expand_tilde` from `profile_export_dialog.rs`; the user's home
directory (`dirs::home_dir`) is passed explicitly, and `Path::join` of a
relative path is `/`-insertion. -/
def expand_tilde (homeDir : Option String) (path : String) : String :=
  match path.data with
  | '~' :: '/' :: rest =>
    match homeDir with
    | some home => home ++ "/" ++ String.mk rest
    | none => path
  | _ => path

/-- The externally visible side effects `submit` can perform, in order. -/
inductive ProfileEffect where
  | serializeProfiles (profiles : List ConnectionProfile)
  | writeFile (path : String) (content : String)
  deriving DecidableEq, Repr

/-- The `selected` vector computed by `submit`: enumerate the checkbox list,
keep the checked ones, and map each index into `all_profiles` (out-of-range
indices drop out through `filter_map`). -/
def selected_profiles (st : ProfileExportDialogState)
    (all_profiles : List ConnectionProfile) : List ConnectionProfile :=
  (st.profiles.enum.filter (fun p => p.2.2)).filterMap (fun p => all_profiles[p.1]?)

/-- `ProfileExportDialog::submit`. `AppConfig::export_profiles` (config.rs
is not in the corpus) is passed as a function per its spec contract
`export_profiles(profiles) -> Result<string, string>`; the outcome of
`fs::write` is the `writeResult` argument. Returns (state after the call,
returned action, side effects in order). -/
def submit (st : ProfileExportDialogState) (all_profiles : List ConnectionProfile)
    (export_profiles : List ConnectionProfile → Except String String)
    (homeDir : Option String) (writeResult : Except String Unit) :
    ProfileExportDialogState × Action × List ProfileEffect :=
  if (trimStr st.filename).isEmpty then
    (st, .ErrorMessage "Filename is required", [])
  else
    let selected := selected_profiles st all_profiles
    if selected.isEmpty then
      (st, .ErrorMessage "No profiles selected", [])
    else
      match export_profiles selected with
      | .error e =>
        ({ st with visible := false }, .ErrorMessage e,
         [.serializeProfiles selected])
      | .ok content =>
        let path := expand_tilde homeDir (trimStr st.filename)
        match writeResult with
        | .error e =>
          ({ st with visible := false },
           .ErrorMessage ("Failed to write " ++ path ++ ": " ++ e),
           [.serializeProfiles selected, .writeFile path content])
        | .ok _ =>
          ({ st with visible := false },
           .StatusMessage ("Exported " ++ toString selected.length ++
             " profile(s) to " ++ path),
           [.serializeProfiles selected, .writeFile path content])

/-! ### Test fixture shared by the concrete witnesses -/

/-- The spec §8 concrete-scenario entry. -/
def testEntry : LdapEntry :=
  { dn := "cn=Test,dc=example,dc=com"
    attributes := [("cn", ["Test"]), ("sn", ["User"])] }

theorem keyLtChars_cons_iff {x y : Char} {xs ys : List Char} :
    keyLtChars (x :: xs) (y :: ys) = true ↔ x < y ∨ (x = y ∧ keyLtChars xs ys = true) := by
  simp only [keyLtChars]
  by_cases h1 : x < y
  · simp [h1]
  · by_cases h2 : x = y
    · simp [h1, h2]
    · simp [h1, h2]

theorem keyLtChars_trans : ∀ {a b c : List Char}, keyLtChars a b = true →
    keyLtChars b c = true → keyLtChars a c = true := by
  intro a
  induction a with
  | nil =>
    intro b c h1 h2
    cases c with
    | nil =>
      cases b with
      | nil => simpa using h1
      | cons y ys => simp [keyLtChars] at h2
    | cons z zs => rfl
  | cons x xs ih =>
    intro b c h1 h2
    cases b with
    | nil => simp [keyLtChars] at h1
    | cons y ys =>
      cases c with
      | nil => simp [keyLtChars] at h2
      | cons z zs =>
        rw [keyLtChars_cons_iff] at h1 h2 ⊢
        rcases h1 with h1 | ⟨rfl, h1⟩
        · rcases h2 with h2 | ⟨rfl, h2⟩
          · exact Or.inl (lt_trans h1 h2)
          · exact Or.inl h1
        · rcases h2 with h2 | ⟨rfl, h2⟩
          · exact Or.inl h2
          · exact Or.inr ⟨rfl, ih h1 h2⟩

theorem keyLtChars_irrefl : ∀ (a : List Char), keyLtChars a a = false := by
  intro a
  induction a with
  | nil => rfl
  | cons x xs ih => simp [keyLtChars, ih]

theorem keyLtChars_trichotomy : ∀ (a b : List Char),
    keyLtChars a b = true ∨ a = b ∨ keyLtChars b a = true := by
  intro a
  induction a with
  | nil =>
    intro b
    cases b with
    | nil => exact Or.inr (Or.inl rfl)
    | cons y ys => exact Or.inl rfl
  | cons x xs ih =>
    intro b
    cases b with
    | nil => exact Or.inr (Or.inr rfl)
    | cons y ys =>
      rcases lt_trichotomy x y with h | rfl | h
      · exact Or.inl (keyLtChars_cons_iff.mpr (Or.inl h))
      · rcases ih ys with h' | rfl | h'
        · exact Or.inl (keyLtChars_cons_iff.mpr (Or.inr ⟨rfl, h'⟩))
        · exact Or.inr (Or.inl rfl)
        · exact Or.inr (Or.inr (keyLtChars_cons_iff.mpr (Or.inr ⟨rfl, h'⟩)))
      · exact Or.inr (Or.inr (keyLtChars_cons_iff.mpr (Or.inl h)))

theorem keyLt_trans {a b c : String} (h1 : keyLt a b = true) (h2 : keyLt b c = true) :
    keyLt a c = true :=
  keyLtChars_trans h1 h2

theorem keyLt_irrefl (a : String) : keyLt a a = false :=
  keyLtChars_irrefl a.data

theorem keyLt_trichotomy (a b : String) : keyLt a b = true ∨ a = b ∨ keyLt b a = true := by
  rcases keyLtChars_trichotomy a.data b.data with h | h | h
  · exact Or.inl h
  · exact Or.inr (Or.inl (by cases a; cases b; exact congrArg String.mk h))
  · exact Or.inr (Or.inr h)

theorem keyLt_asymm {a b : String} (h : keyLt a b = true) : keyLt b a = false := by
  by_contra hc
  have hba : keyLt b a = true := by
    cases hab : keyLt b a
    · exact absurd hab hc
    · rfl
  have := keyLt_trans h hba
  rw [keyLt_irrefl] at this
  exact Bool.false_ne_true this

theorem keyLt_ne {a b : String} (h : keyLt a b = true) : a ≠ b := by
  rintro rfl
  rw [keyLt_irrefl] at h
  exact Bool.false_ne_true h

/-! ### Lemmas about the `BTreeMap` model -/

theorem mem_insertSorted {x : String × List String} {k : String} {v : List String} :
    ∀ {m : List (String × List String)}, x ∈ insertSorted k v m → x = (k, v) ∨ x ∈ m := by
  intro m
  induction m with
  | nil => intro h; simpa [insertSorted] using h
  | cons y rest ih =>
    obtain ⟨k', v'⟩ := y
    intro h
    simp only [insertSorted] at h
    split_ifs at h with h1 h2
    · rcases List.mem_cons.mp h with h | h
      · exact Or.inl h
      · exact Or.inr h
    · rcases List.mem_cons.mp h with h | h
      · exact Or.inl h
      · exact Or.inr (List.mem_cons_of_mem _ h)
    · rcases List.mem_cons.mp h with h | h
      · exact Or.inr (h ▸ List.mem_cons_self _ _)
      · rcases ih h with h' | h'
        · exact Or.inl h'
        · exact Or.inr (List.mem_cons_of_mem _ h')

theorem sortedKeys_insertSorted {k : String} {v : List String} :
    ∀ {m : List (String × List String)}, sortedKeys m → sortedKeys (insertSorted k v m) := by
  intro m
  induction m with
  | nil => intro _; simp [insertSorted, sortedKeys]
  | cons y rest ih =>
    obtain ⟨k', v'⟩ := y
    intro h
    rw [sortedKeys, List.pairwise_cons] at h
    obtain ⟨hy, hrest⟩ := h
    simp only [insertSorted]
    split_ifs with h1 h2
    · rw [sortedKeys, List.pairwise_cons]
      refine ⟨?_, List.pairwise_cons.mpr ⟨hy, hrest⟩⟩
      intro a ha
      rcases List.mem_cons.mp ha with rfl | ha
      · exact h1
      · exact keyLt_trans h1 (hy a ha)
    · subst h2
      rw [sortedKeys, List.pairwise_cons]
      exact ⟨hy, hrest⟩
    · rw [sortedKeys, List.pairwise_cons]
      refine ⟨?_, ih hrest⟩
      intro a ha
      rcases mem_insertSorted ha with rfl | ha
      · rcases keyLt_trichotomy k k' with hk | hk | hk
        · exact absurd hk h1
        · exact absurd hk h2
        · exact hk
      · exact hy a ha

theorem insertSorted_append {k : String} {v : List String} :
    ∀ {m : List (String × List String)}, (∀ x ∈ m, keyLt x.1 k = true) →
      insertSorted k v m = m ++ [(k, v)] := by
  intro m
  induction m with
  | nil => intro _; rfl
  | cons y rest ih =>
    obtain ⟨k', v'⟩ := y
    intro h
    have hy : keyLt k' k = true := h (k', v') (List.mem_cons_self _ _)
    have h1 : ¬ (keyLt k k' = true) := by simp [keyLt_asymm hy]
    have h2 : ¬ (k = k') := fun he => keyLt_ne hy he.symm
    simp only [insertSorted]
    rw [if_neg h1, if_neg h2, ih (fun x hx => h x (List.mem_cons_of_mem _ hx)),
      List.cons_append]

theorem foldl_insertSorted_of_sorted :
    ∀ (l acc : List (String × List String)), sortedKeys acc → sortedKeys l →
      (∀ a ∈ acc, ∀ b ∈ l, keyLt a.1 b.1 = true) →
      l.foldl (fun m kv => insertSorted kv.1 kv.2 m) acc = acc ++ l := by
  intro l
  induction l with
  | nil => intro acc _ _ _; simp
  | cons y rest ih =>
    intro acc hacc hl hsep
    rw [sortedKeys, List.pairwise_cons] at hl
    obtain ⟨hy, hrest⟩ := hl
    have hstep : insertSorted y.1 y.2 acc = acc ++ [y] := by
      rw [insertSorted_append (fun x hx => hsep x hx y (List.mem_cons_self _ _))]
    have hacc' : sortedKeys (acc ++ [y]) := by
      rw [sortedKeys, List.pairwise_append]
      refine ⟨hacc, List.pairwise_singleton _ _, ?_⟩
      intro a ha b hb
      rw [List.mem_singleton] at hb
      subst hb
      exact hsep a ha b (List.mem_cons_self _ _)
    have hsep' : ∀ a ∈ acc ++ [y], ∀ b ∈ rest, keyLt a.1 b.1 = true := by
      intro a ha b hb
      rcases List.mem_append.mp ha with ha | ha
      · exact hsep a ha b (List.mem_cons_of_mem _ hb)
      · rw [List.mem_singleton] at ha
        subst ha
        exact hy b hb
    rw [List.foldl_cons, hstep, ih (acc ++ [y]) hacc' hrest hsep']
    simp

theorem collectBTree_of_sorted {l : List (String × List String)} (hl : sortedKeys l) :
    collectBTree l = l := by
  rw [collectBTree, foldl_insertSorted_of_sorted l [] (by simp [sortedKeys]) hl (by simp)]
  rfl

theorem sortedKeys_foldl_insertSorted :
    ∀ (l acc : List (String × List String)), sortedKeys acc →
      sortedKeys (l.foldl (fun m kv => insertSorted kv.1 kv.2 m) acc) := by
  intro l
  induction l with
  | nil => intro acc h; exact h
  | cons y rest ih =>
    intro acc h
    rw [List.foldl_cons]
    exact ih _ (sortedKeys_insertSorted h)

theorem sortedKeys_collectBTree (l : List (String × List String)) :
    sortedKeys (collectBTree l) :=
  sortedKeys_foldl_insertSorted l [] (by simp [sortedKeys])

theorem lookupA_insertSorted (key k : String) (v : List String) :
    ∀ (m : List (String × List String)),
      lookupA key (insertSorted k v m) = if key = k then some v else lookupA key m := by
  intro m
  induction m with
  | nil => simp [insertSorted, lookupA]
  | cons y rest ih =>
    obtain ⟨k', v'⟩ := y
    by_cases h1 : keyLt k k' = true
    · simp only [insertSorted, if_pos h1]
      simp only [lookupA]
    · by_cases h2 : k = k'
      · subst h2
        simp only [insertSorted, if_neg h1, if_pos rfl]
        simp only [lookupA]
        by_cases hk : key = k
        · simp [hk]
        · simp [hk]
      · simp only [insertSorted, if_neg h1, if_neg h2]
        simp only [lookupA]
        by_cases hk : key = k'
        · have hne : ¬ (k' = k) := fun he => h2 he.symm
          simp [hk, hne]
        · simp only [hk, if_false]
          rw [ih]

theorem lookupA_append (key : String) :
    ∀ (a b : List (String × List String)),
      lookupA key (a ++ b) = optOr (lookupA key a) (lookupA key b) := by
  intro a b
  induction a with
  | nil => rfl
  | cons y rest ih =>
    obtain ⟨k', v'⟩ := y
    simp only [List.cons_append, lookupA]
    by_cases h : key = k'
    · rw [if_pos h, if_pos h]
      rfl
    · rw [if_neg h, if_neg h]
      exact ih

theorem lookupA_foldl_insertSorted (key : String) :
    ∀ (l m : List (String × List String)),
      lookupA key (l.foldl (fun m kv => insertSorted kv.1 kv.2 m) m) =
        optOr (lookupA key l.reverse) (lookupA key m) := by
  intro l
  induction l with
  | nil => intro m; rfl
  | cons y rest ih =>
    intro m
    obtain ⟨k', v'⟩ := y
    rw [List.foldl_cons, ih, List.reverse_cons, lookupA_append,
      lookupA_insertSorted]
    cases hr : lookupA key rest.reverse with
    | some v => rfl
    | none =>
      by_cases h : key = k'
      · simp only [optOr, lookupA, if_pos h]
      · simp only [optOr, lookupA, if_neg h]

theorem reverse_filterMap {α β : Type} (f : α → Option β) :
    ∀ (l : List α), (l.filterMap f).reverse = l.reverse.filterMap f := by
  intro l
  induction l with
  | nil => rfl
  | cons x xs ih =>
    cases h : f x with
    | none =>
      simp only [List.filterMap_cons, h, List.reverse_cons, List.filterMap_append, ih,
        List.filterMap_nil, List.append_nil]
    | some b =>
      simp only [List.filterMap_cons, h, List.reverse_cons, List.filterMap_append, ih,
        List.filterMap_nil]

theorem lookupA_filterMap (g : String → Option (List String)) (key : String) :
    ∀ (l : List String),
      lookupA key (l.filterMap (fun a => (g a).map (fun v => (a, v)))) =
        if key ∈ l then g key else none := by
  intro l
  induction l with
  | nil => simp [lookupA]
  | cons a rest ih =>
    rw [List.filterMap_cons]
    cases hga : g a with
    | none =>
      simp only [Option.map_none']
      rw [ih]
      by_cases hk : key = a
      · subst hk
        by_cases hm : key ∈ rest
        · simp [hm, List.mem_cons]
        · simp [hm, List.mem_cons, hga]
      · simp [List.mem_cons, hk]
    | some v =>
      simp only [Option.map_some']
      rw [lookupA]
      by_cases hk : key = a
      · subst hk
        simp [List.mem_cons, hga]
      · rw [if_neg hk, ih]
        simp [List.mem_cons, hk]

/-- Key fact for the filter-correctness claims: in an entry rebuilt by
`filter_entries` for explicit selection `attrs`, looking up `key` gives the
entry's original value sequence when `key ∈ attrs`, and nothing otherwise. -/
theorem lookupA_filtered (attrs : List String) (entry : LdapEntry) (key : String) :
    lookupA key (collectBTree
        (attrs.filterMap (fun a => (lookupA a entry.attributes).map (fun v => (a, v))))) =
      if key ∈ attrs then lookupA key entry.attributes else none := by
  rw [collectBTree, lookupA_foldl_insertSorted, reverse_filterMap, lookupA_filterMap]
  simp only [List.mem_reverse, lookupA]
  cases h : (if key ∈ attrs then lookupA key entry.attributes else none) with
  | none => simp [optOr, h]
  | some v => simp [optOr, h]

/-! ### JSON roundtrip lemmas -/

theorem mapM_str_roundtrip (vs : List String) :
    mapMo (fun j => match j with | .str s => some s | _ => none)
      (vs.map Json.str) = some vs := by
  induction vs with
  | nil => rfl
  | cons v rest ih => simp [mapMo, ih]

theorem valuesFromJson_roundtrip (vs : List String) :
    valuesFromJson (.arr (vs.map .str)) = some vs := by
  simp [valuesFromJson, mapM_str_roundtrip]

theorem mapM_attr_roundtrip (attrs : List (String × List String)) :
    mapMo (fun kv => (valuesFromJson kv.2).map (fun v => (kv.1, v)))
      (attrs.map (fun kv => (kv.1, Json.arr (kv.2.map Json.str)))) = some attrs := by
  induction attrs with
  | nil => rfl
  | cons y rest ih =>
    obtain ⟨k, vs⟩ := y
    simp [mapMo, valuesFromJson_roundtrip, ih]

theorem attrsFromJson_roundtrip (attrs : List (String × List String))
    (h : sortedKeys attrs) :
    attrsFromJson (.obj (attrs.map (fun kv => (kv.1, .arr (kv.2.map .str))))) =
      some attrs := by
  simp [attrsFromJson, mapM_attr_roundtrip, collectBTree_of_sorted h]

theorem entryFromJson_roundtrip (e : LdapEntry) (h : sortedKeys e.attributes) :
    entryFromJson (entryToJson e) = some e := by
  obtain ⟨d, attrs⟩ := e
  have : entryFromJson (entryToJson ⟨d, attrs⟩) =
      (attrsFromJson (.obj (attrs.map (fun kv => (kv.1, .arr (kv.2.map .str)))))).map
        (fun m => { dn := d, attributes := m }) := rfl
  rw [this, attrsFromJson_roundtrip attrs h]
  rfl

theorem entriesFromJson_roundtrip : ∀ (es : List LdapEntry),
    (∀ e ∈ es, sortedKeys e.attributes) →
      entriesFromJson (entriesToJson es) = some es := by
  intro es
  induction es with
  | nil => intro _; rfl
  | cons e rest ih =>
    intro h
    have he := entryFromJson_roundtrip e (h e (List.mem_cons_self _ _))
    have hr := ih (fun x hx => h x (List.mem_cons_of_mem _ hx))
    simp only [entriesToJson, entriesFromJson] at hr ⊢
    simp [mapMo, he, hr]

theorem jsonAttrKeys_entryToJson (e : LdapEntry) :
    jsonAttrKeys (entryToJson e) = e.attributes.map Prod.fst := by
  simp [entryToJson, jsonAttrKeys, jsonObjKeys, List.lookup, List.map_map,
    Function.comp]

/-! ### Facts about the wildcard sentinel -/

theorem wildcard_cond_iff (L : List String) :
    (L.length = 1 ∧ L[0]? = some "*") ↔ L = ["*"] := by
  match L with
  | [] => simp
  | [a] => simp
  | a :: b :: rest => simp

theorem requested_attrs_eq_none_iff (L : List String) :
    requested_attrs L = none ↔ L = ["*"] := by
  rw [requested_attrs, ← wildcard_cond_iff]
  split_ifs with h
  · simp [h]
  · simp [h]

theorem requested_attrs_eq_some {L : List String} (h : L ≠ ["*"]) :
    requested_attrs L = some L := by
  rw [requested_attrs, if_neg]
  rw [wildcard_cond_iff]
  exact h

/-! ### Claim theorems -/

/-- C2: for every entry collection and explicit selection list `L`,
filtering preserves the number of entries, their relative order and their
distinguished names, and each output entry's attribute set maps exactly the
names of `L` present on that entry (exact-name match) to the entry's
original value sequence, with nothing else present. -/
theorem filter_entries_explicit_exact (entries : List LdapEntry) (L : List String)
    (hL : L ≠ ["*"]) :
    (filter_entries entries L).length = entries.length ∧
    (∀ i : Nat, ((filter_entries entries L)[i]?).map LdapEntry.dn =
      (entries[i]?).map LdapEntry.dn) ∧
    (∀ i : Nat, ∀ name : String,
      ((filter_entries entries L)[i]?).map (fun e => lookupA name e.attributes) =
        (entries[i]?).map (fun e =>
          if name ∈ L then lookupA name e.attributes else none)) := by
  have hfe : filter_entries entries L = entries.map (fun entry =>
      { dn := entry.dn
        attributes := collectBTree
          (L.filterMap (fun a =>
            (lookupA a entry.attributes).map (fun v => (a, v)))) }) := by
    simp only [filter_entries, requested_attrs_eq_some hL]
  refine ⟨?_, ?_, ?_⟩
  · rw [hfe, List.length_map]
  · intro i
    rw [hfe, List.getElem?_map]
    cases entries[i]? with
    | none => rfl
    | some e => rfl
  · intro i name
    rw [hfe, List.getElem?_map]
    cases h : entries[i]? with
    | none => rfl
    | some e =>
      simp only [Option.map_some']
      rw [lookupA_filtered]

/-- C2 witness: the theorem applied to the spec §8 entry and the explicit
list `["sn", "cn"]`. -/
theorem filter_entries_explicit_exact_witness :
    (["sn", "cn"] : List String) ≠ ["*"] ∧
    ((filter_entries [testEntry] ["sn", "cn"]).length = [testEntry].length ∧
     (∀ i : Nat, ((filter_entries [testEntry] ["sn", "cn"])[i]?).map LdapEntry.dn =
       ([testEntry][i]?).map LdapEntry.dn) ∧
     (∀ i : Nat, ∀ name : String,
       ((filter_entries [testEntry] ["sn", "cn"])[i]?).map
           (fun e => lookupA name e.attributes) =
         ([testEntry][i]?).map (fun e =>
           if name ∈ ["sn", "cn"] then lookupA name e.attributes else none))) :=
  ⟨by decide, filter_entries_explicit_exact [testEntry] ["sn", "cn"] (by decide)⟩

/-- C1 counterexample: requesting `["sn", "cn"]` on the spec §8 entry
produces the JSON attribute order `["cn", "sn"]` (alphabetical), not the
caller-given literal order `["sn", "cn"]` — the rebuilt `BTreeMap` re-sorts. -/
theorem filter_entries_not_caller_order :
    Except.map (fun j => match j with | Json.arr l => l.map jsonAttrKeys | _ => [])
        (to_string [testEntry] ["sn", "cn"]) = Except.ok [["cn", "sn"]] ∧
    (["cn", "sn"] : List String) ≠ ["sn", "cn"] := by
  constructor
  · rfl
  · decide

/-- C1 (amended): for explicit selection the exported JSON lists each
entry's attributes in strictly increasing (alphabetical) name order; the
caller-given literal order of the list is not preserved. -/
theorem filter_entries_alphabetical_order (entries : List LdapEntry)
    (L : List String) (hL : L ≠ ["*"]) :
    to_string entries L = .ok (.arr ((filter_entries entries L).map entryToJson)) ∧
    ∀ e ∈ filter_entries entries L,
      List.Pairwise (fun a b => keyLt a b = true)
        (jsonAttrKeys (entryToJson e)) := by
  refine ⟨rfl, ?_⟩
  intro e he
  rw [jsonAttrKeys_entryToJson]
  simp only [filter_entries, requested_attrs_eq_some hL, List.mem_map] at he
  obtain ⟨entry, _, rfl⟩ := he
  exact (List.pairwise_map).mpr (sortedKeys_collectBTree _)

/-- C1 witness: the amended theorem applied to the spec §8 entry and the
explicit list `["sn", "cn"]`. -/
theorem filter_entries_alphabetical_order_witness :
    (["sn", "cn"] : List String) ≠ ["*"] ∧
    (to_string [testEntry] ["sn", "cn"] =
        .ok (.arr ((filter_entries [testEntry] ["sn", "cn"]).map entryToJson)) ∧
     ∀ e ∈ filter_entries [testEntry] ["sn", "cn"],
       List.Pairwise (fun a b => keyLt a b = true)
         (jsonAttrKeys (entryToJson e))) :=
  ⟨by decide, filter_entries_alphabetical_order [testEntry] ["sn", "cn"] (by decide)⟩

/-- C5: `["*"]` is the sole wildcard sentinel — any other list, including a
single non-`"*"` element, is explicit — and wildcard filtering returns every
entry unchanged. -/
theorem wildcard_sentinel_identity (entries : List LdapEntry) (L : List String)
    (hL : L ≠ ["*"]) :
    requested_attrs ["*"] = none ∧
    requested_attrs L = some L ∧
    filter_entries entries ["*"] = entries :=
  ⟨rfl, requested_attrs_eq_some hL, rfl⟩

/-- C5 witness: the theorem applied to the single non-wildcard list
`["cn"]`. -/
theorem wildcard_sentinel_identity_witness :
    (["cn"] : List String) ≠ ["*"] ∧
    (requested_attrs ["*"] = none ∧
     requested_attrs ["cn"] = some ["cn"] ∧
     filter_entries [testEntry] ["*"] = [testEntry]) :=
  ⟨by decide, wildcard_sentinel_identity [testEntry] ["cn"] (by decide)⟩

/-- C8: the empty attribute list is explicit selection of nothing, not
wildcard: every output entry keeps its dn with an empty attribute set, the
JSON export succeeds, and the returned count is the full input length. -/
theorem empty_attrs_explicit_nothing (entries : List LdapEntry) :
    requested_attrs [] = some [] ∧
    filter_entries entries [] =
      entries.map (fun e => { dn := e.dn, attributes := [] }) ∧
    json_export entries [] true =
      (.ok entries.length,
       some (.jsonFile (entriesToJson
         (entries.map (fun e => { dn := e.dn, attributes := [] }))))) :=
  ⟨rfl, rfl, rfl⟩

/-- C3: whenever export through the JSON path succeeds, the returned count
equals the number of entries in the original unfiltered input, regardless of
the attribute selection. -/
theorem json_export_count (entries : List LdapEntry) (path : String)
    (attrs : List String) (w : Bool) (n : Nat) (out : Option FileOutput)
    (hfmt : ExportFormat.from_path path = some ExportFormat.Json)
    (h : export_entries entries path attrs w = (.ok n, out)) :
    n = entries.length := by
  simp only [export_entries, hfmt] at h
  cases w with
  | false =>
    simp only [json_export, if_neg (by decide : ¬ (false = true))] at h
    exact absurd (congrArg Prod.fst h) (by simp)
  | true =>
    simp only [json_export, if_pos rfl] at h
    have := congrArg Prod.fst h
    simp only at this
    exact (Except.ok.injEq _ _).mp this.symm |>.symm ▸ rfl

/-- C3 witness: the theorem applied to a one-entry export to `out.json`
with a selection that drops every attribute. -/
theorem json_export_count_witness :
    ExportFormat.from_path "out.json" = some ExportFormat.Json ∧
    export_entries [testEntry] "out.json" ["mail"] true =
      (.ok 1, some (.jsonFile (entriesToJson (filter_entries [testEntry] ["mail"])))) ∧
    (1 : Nat) = [testEntry].length :=
  ⟨rfl, rfl,
   json_export_count [testEntry] "out.json" ["mail"] true 1
     (some (.jsonFile (entriesToJson (filter_entries [testEntry] ["mail"])))) rfl rfl⟩

/-- C4: `ExportFormat::from_path` resolves the extension case-insensitively
with exactly the spec's aliases (`ldif`/`ldf` → Ldif, `json` → Json,
`csv` → Csv, `xlsx`/`xls` → Xlsx), and for a path whose extension is absent
or unrecognized, `export_entries` fails with the unknown-extension error and
produces no output file. -/
theorem from_path_aliases_unknown_fails (p : String) (entries : List LdapEntry)
    (attrs : List String) (w : Bool)
    (h : ExportFormat.from_path p = none) :
    (∀ q : String, ExportFormat.from_path q =
      (path_extension q).bind (fun ext => specExtFormat (lowerStr ext))) ∧
    export_entries entries p attrs w =
      (.error (.ExportError "Unknown file extension"), none) := by
  constructor
  · intro q
    simp only [ExportFormat.from_path]
    cases hpe : path_extension q with
    | none => rfl
    | some e =>
      simp only [Option.some_bind]
      generalize lowerStr e = s
      by_cases h1 : s = "ldif" ∨ s = "ldf"
      · rcases h1 with rfl | rfl <;> rfl
      · by_cases h2 : s = "json"
        · subst h2; rfl
        · by_cases h3 : s = "csv"
          · subst h3; rfl
          · by_cases h4 : s = "xlsx" ∨ s = "xls"
            · rcases h4 with rfl | rfl <;> rfl
            · simp only [specExtFormat]
              rw [if_neg h1, if_neg h2, if_neg h3, if_neg h4,
                if_neg h1, if_neg h4, if_neg h2, if_neg h3]
  · simp only [export_entries, h]

/-- C4 witness: the theorem applied to the unrecognized path `a.txt`. -/
theorem from_path_aliases_unknown_fails_witness :
    ExportFormat.from_path "a.txt" = none ∧
    ((∀ q : String, ExportFormat.from_path q =
        (path_extension q).bind (fun ext => specExtFormat (lowerStr ext))) ∧
     export_entries [testEntry] "a.txt" ["*"] true =
       (.error (.ExportError "Unknown file extension"), none)) :=
  ⟨rfl, from_path_aliases_unknown_fails "a.txt" [testEntry] ["*"] true rfl⟩

/-- C6: `get_values` returns the identical value sequence for any casing of
the queried name, `has_attr` agrees for all casings, and the first key in
the map's iteration order whose lowercasing matches wins. -/
theorem get_values_case_insensitive (attrs : List (String × List String))
    (k1 k2 : String) (h : lowerStr k1 = lowerStr k2) :
    get_values attrs k1 = get_values attrs k2 ∧
    has_attr attrs k1 = has_attr attrs k2 ∧
    (∀ (k : String) (v : List String) (rest : List (String × List String)),
      lowerStr k = lowerStr k1 → get_values ((k, v) :: rest) k1 = v) := by
  refine ⟨?_, ?_, ?_⟩
  · induction attrs with
    | nil => rfl
    | cons y rest ih =>
      obtain ⟨k, v⟩ := y
      simp only [get_values]
      rw [h, ih]
  · simp only [has_attr, h]
  · intro k v rest hk
    simp only [get_values, if_pos hk]

/-- C6 witness: the theorem applied to a pathological map with two keys
differing only by case, queried with the casings `Cn` and `cN`; iteration
order makes `CN` win. -/
theorem get_values_case_insensitive_witness :
    lowerStr "Cn" = lowerStr "cN" ∧
    (get_values [("CN", ["a"]), ("cn", ["b"])] "Cn" =
       get_values [("CN", ["a"]), ("cn", ["b"])] "cN" ∧
     has_attr [("CN", ["a"]), ("cn", ["b"])] "Cn" =
       has_attr [("CN", ["a"]), ("cn", ["b"])] "cN" ∧
     (∀ (k : String) (v : List String) (rest : List (String × List String)),
       lowerStr k = lowerStr "Cn" → get_values ((k, v) :: rest) "Cn" = v)) :=
  ⟨by decide, get_values_case_insensitive [("CN", ["a"]), ("cn", ["b"])] "Cn" "cN" (by decide)⟩

/-- C7: serializing any entry collection to JSON with wildcard selection and
parsing the result back yields exactly the input entries (hence the same
(dn, attribute-name, value-sequence) triples), and each serialized entry
lists its attribute names in alphabetical order. -/
theorem json_roundtrip_wildcard (entries : List LdapEntry)
    (hwf : ∀ e ∈ entries, sortedKeys e.attributes) :
    to_string entries ["*"] = .ok (entriesToJson entries) ∧
    entriesFromJson (entriesToJson entries) = some entries ∧
    ∀ e ∈ entries, List.Pairwise (fun a b => keyLt a b = true)
      (jsonAttrKeys (entryToJson e)) := by
  refine ⟨rfl, entriesFromJson_roundtrip entries hwf, ?_⟩
  intro e he
  rw [jsonAttrKeys_entryToJson]
  exact (List.pairwise_map).mpr (hwf e he)

/-- C7 witness: the roundtrip theorem applied to the spec §8 concrete
scenario entry. -/
theorem json_roundtrip_wildcard_witness :
    (∀ e ∈ [testEntry], sortedKeys e.attributes) ∧
    (to_string [testEntry] ["*"] = .ok (entriesToJson [testEntry]) ∧
     entriesFromJson (entriesToJson [testEntry]) = some [testEntry] ∧
     ∀ e ∈ [testEntry], List.Pairwise (fun a b => keyLt a b = true)
       (jsonAttrKeys (entryToJson e))) :=
  ⟨by decide, json_roundtrip_wildcard [testEntry] (by decide)⟩

/-- C9: when the trimmed output filename is empty or the selected-profiles
vector is empty, `submit` returns an error message, performs no profile
serialization and no filesystem write, and leaves the dialog state (its
visibility included) unchanged. -/
theorem submit_early_errors (st : ProfileExportDialogState)
    (all_profiles : List ConnectionProfile)
    (ep : List ConnectionProfile → Except String String)
    (homeDir : Option String) (wr : Except String Unit)
    (h : (trimStr st.filename).isEmpty = true ∨
      selected_profiles st all_profiles = []) :
    (submit st all_profiles ep homeDir wr).1 = st ∧
    (∃ msg, (submit st all_profiles ep homeDir wr).2.1 = .ErrorMessage msg) ∧
    (submit st all_profiles ep homeDir wr).2.2 = [] ∧
    (submit st all_profiles ep homeDir wr).1.visible = st.visible := by
  rcases h with h | h
  · simp [submit, if_pos h]
  · by_cases he : (trimStr st.filename).isEmpty = true
    · simp [submit, if_pos he]
    · have hsel : (selected_profiles st all_profiles).isEmpty = true := by
        rw [h]; rfl
      simp [submit, if_neg he, hsel]

/-- C9 witness: the theorem applied to a visible dialog with an empty
filename. -/
theorem submit_early_errors_witness :
    ((trimStr "").isEmpty = true ∨
      selected_profiles
        { visible := true, active_field := .ProfileList,
          profiles := [("p", true)], cursor := 0, filename := "" }
        [{ name := "p" }] = []) ∧
    ((submit
        { visible := true, active_field := .ProfileList,
          profiles := [("p", true)], cursor := 0, filename := "" }
        [{ name := "p" }] (fun _ => .ok "") none (.ok ())).1 =
      { visible := true, active_field := .ProfileList,
        profiles := [("p", true)], cursor := 0, filename := "" } ∧
     (∃ msg, (submit
        { visible := true, active_field := .ProfileList,
          profiles := [("p", true)], cursor := 0, filename := "" }
        [{ name := "p" }] (fun _ => .ok "") none (.ok ())).2.1 = .ErrorMessage msg) ∧
     (submit
        { visible := true, active_field := .ProfileList,
          profiles := [("p", true)], cursor := 0, filename := "" }
        [{ name := "p" }] (fun _ => .ok "") none (.ok ())).2.2 = [] ∧
     (submit
        { visible := true, active_field := .ProfileList,
          profiles := [("p", true)], cursor := 0, filename := "" }
        [{ name := "p" }] (fun _ => .ok "") none (.ok ())).1.visible = true) :=
  ⟨Or.inl (by decide),
   submit_early_errors
     { visible := true, active_field := .ProfileList,
       profiles := [("p", true)], cursor := 0, filename := "" }
     [{ name := "p" }] (fun _ => .ok "") none (.ok ()) (Or.inl (by decide))⟩

/-- C10: the layout-bar padding computation clamps the content length to the
area width before subtracting, so the subtraction never underflows (the
exact integer difference is non-negative and equals the `Nat` computation),
and the rendered padding's length is the area width minus the clamped
content length. -/
theorem layout_bar_padding_no_underflow (active : ActiveLayout) (w c : Nat) :
    min c w ≤ w ∧
    layout_bar_padding_len w c = w - min c w ∧
    ((min c w : Int) ≤ (w : Int) ∧
     (w : Int) - (min c w : Int) = (layout_bar_padding_len w c : Int)) ∧
    (layout_bar_padding active w).length =
      layout_bar_padding_len w (layout_bar_content_len active) := by
  refine ⟨min_le_right _ _, rfl, ⟨?_, ?_⟩, ?_⟩
  · exact_mod_cast min_le_right c w
  · simp only [layout_bar_padding_len]
    omega
  · simp [layout_bar_padding, String.length]

end Loom
